import Mathlib

/-!
Verification of the single-domain image crawler in `src/scrape/scraper.py`.

The development shallowly embeds the crawler: the network is a pure
environment (`Env`) mapping URLs to fetch results, the mutable module-level
state of the script (`visited_pages`, `pages_to_visit`, `downloaded_images`,
the output directory) is an explicit `CrawlState`, and the while-loop is a
fuel-indexed iteration of a step function.  The URL helpers used by the
script (`urllib.parse.urljoin`, `urllib.parse.urlparse(...).netloc/.path`,
`os.path.basename`, `str.split`) are modelled by executable functions over
character lists, following the CPython implementations restricted to the
http(s) URLs the program handles (no `;params` splitting, every scheme
treated as hierarchical).
-/

namespace Scraper

/-! ### Character-list string utilities -/

/-- Character list of a string. -/
def chars (s : String) : List Char := s.toList

/-- String from a character list. -/
def ofChars (l : List Char) : String := String.mk l

/-- Models Python `str.split(sep)` for a one-character separator: the result
is always a non-empty list of (possibly empty) groups. -/
def splitOnChar (sep : Char) : List Char → List (List Char)
  | [] => [[]]
  | c :: cs =>
    if c = sep then [] :: splitOnChar sep cs
    else
      match splitOnChar sep cs with
      | [] => [[c]]
      | g :: gs => (c :: g) :: gs

/-- Splits at the first occurrence of `sep`: returns the part before it and
the part after it (empty when `sep` does not occur, matching the way
`urllib.parse` treats a missing `#`/`?` the same as a trailing empty one). -/
def breakFirst (sep : Char) : List Char → List Char × List Char
  | [] => ([], [])
  | c :: cs =>
    if c = sep then ([], cs)
    else
      let p := breakFirst sep cs
      (c :: p.1, p.2)

/-- Models `'/'.join`. -/
def joinWith (sep : Char) : List (List Char) → List Char
  | [] => []
  | [g] => g
  | g :: gs => g ++ sep :: joinWith sep gs

/-- ASCII lower-casing of one character, as Python `str.lower` acts on the
ASCII scheme characters the model cares about. -/
def lowerChar (c : Char) : Char :=
  if 'A' ≤ c ∧ c ≤ 'Z' then Char.ofNat (c.toNat + 32) else c

/-- ASCII lower-casing of a word. -/
def lowerChars (l : List Char) : List Char := l.map lowerChar

/-- Lower-cased string, used to compare network authorities up to case. -/
def lowerStr (s : String) : String := ofChars (lowerChars (chars s))

/-- Models `a['href'].split('#')[0]` from the scraper: everything before the
first `#` of the raw reference. -/
def stripFragment (s : String) : String := ofChars ((breakFirst '#' (chars s)).1)

/-! ### URL parsing, modelling `urllib.parse` -/

/-- Result of `urllib.parse.urlsplit`: scheme, network location, path, query
and fragment.  The `;params` component of `urlparse` is left inside the
path, which coincides with CPython on URLs without `;`. -/
structure URLParts where
  scheme : String
  netloc : String
  path : String
  query : String
  fragment : String
deriving DecidableEq, Repr

/-- Valid non-initial characters of a URL scheme, per CPython
`urllib.parse.scheme_chars`. -/
def isSchemeChar (c : Char) : Bool :=
  c.isAlphanum || c = '+' || c = '-' || c = '.'

/-- Splits a leading `scheme:` off a URL as CPython `urlsplit` does: the part
before the first `:` counts as a scheme when it is non-empty, starts with a
letter and uses only scheme characters; the scheme is lower-cased. -/
def splitScheme (l : List Char) : List Char × List Char :=
  let p := breakFirst ':' l
  if (p.1 ++ p.2).length = l.length then
    -- a `:` is present exactly when the two parts are one shorter than `l`
    ([], l)
  else if p.1 ≠ [] ∧ (p.1.headD ' ').isAlpha ∧ p.1.all isSchemeChar then
    (lowerChars p.1, p.2)
  else
    ([], l)

/-- Characters that terminate the network-location part, per CPython
`_splitnetloc`. -/
def isNetlocEnd (c : Char) : Bool := c = '/' || c = '?' || c = '#'

/-- Models `urllib.parse.urlsplit` on a character list. -/
def urlsplitL (l : List Char) : URLParts :=
  let sp := splitScheme l
  let scheme := sp.1
  let rest0 := sp.2
  let hasNetloc : Bool := ['/', '/'].isPrefixOf rest0
  let netloc := if hasNetloc then (rest0.drop 2).takeWhile (fun c => !isNetlocEnd c) else []
  let rest1 := if hasNetloc then (rest0.drop 2).dropWhile (fun c => !isNetlocEnd c) else rest0
  let pf := breakFirst '#' rest1
  let pq := breakFirst '?' pf.1
  ⟨ofChars scheme, ofChars netloc, ofChars pq.1, ofChars pq.2, ofChars pf.2⟩

/-- Models `urllib.parse.urlsplit` on strings. -/
def urlsplit (s : String) : URLParts := urlsplitL (chars s)

/-- Models `urllib.parse.urlparse(u).netloc`, the network authority used by
the scraper's domain comparison. -/
def netlocOf (s : String) : String := (urlsplit s).netloc

/-- Models `urllib.parse.urlparse(u).path`. -/
def pathOf (s : String) : String := (urlsplit s).path

/-- Models `urllib.parse.urlunsplit`. -/
def urlunsplit (u : URLParts) : String :=
  let path := chars u.path
  let netloc := chars u.netloc
  let withNet :=
    if netloc ≠ [] ∨ ['/', '/'].isPrefixOf path then
      let p := if path ≠ [] ∧ ¬ ('/' :: []).isPrefixOf path then '/' :: path else path
      '/' :: '/' :: netloc ++ p
    else path
  let withScheme :=
    if u.scheme ≠ "" then chars u.scheme ++ ':' :: withNet else withNet
  let withQuery :=
    if u.query ≠ "" then withScheme ++ '?' :: chars u.query else withScheme
  let full :=
    if u.fragment ≠ "" then withQuery ++ '#' :: chars u.fragment else withQuery
  ofChars full

/-- Dot-segment resolution of CPython `urljoin`: `..` pops the most recent
kept segment (silently ignoring underflow) and `.` is dropped.  The first
argument accumulates kept segments in reverse. -/
def popDots (acc : List (List Char)) : List (List Char) → List (List Char)
  | [] => acc.reverse
  | seg :: rest =>
    if seg = ['.', '.'] then popDots acc.tail rest
    else if seg = ['.'] then popDots acc rest
    else popDots (seg :: acc) rest

/-- Models `segments[1:-1] = filter(None, segments[1:-1])` from CPython
`urljoin`: empty segments are removed except in first and last position. -/
def filterMiddle : List (List Char) → List (List Char)
  | [] => []
  | [a] => [a]
  | a :: rest => a :: ((rest.dropLast.filter (fun s => !s.isEmpty)) ++ [rest.getLastD []])

/-- Models `urllib.parse.urljoin` for hierarchical schemes, following the
CPython algorithm: same-scheme URLs with an authority win outright,
otherwise the reference is resolved against the base with base-directory
merging and dot-segment resolution. -/
def urljoin (base url : String) : String :=
  if base = "" then url
  else if url = "" then base
  else
    let b := urlsplitL (chars base)
    let u := urlsplitL (chars url)
    let scheme := if u.scheme = "" then b.scheme else u.scheme
    if scheme ≠ b.scheme then url
    else if u.netloc ≠ "" then urlunsplit { u with scheme := scheme }
    else if u.path = "" then
      urlunsplit ⟨scheme, b.netloc, b.path, if u.query = "" then b.query else u.query, u.fragment⟩
    else
      let bsegs0 := splitOnChar '/' (chars b.path)
      let bsegs := if bsegs0.getLastD [] ≠ [] then bsegs0.dropLast else bsegs0
      let psegs := splitOnChar '/' (chars u.path)
      let segments :=
        if ('/' :: []).isPrefixOf (chars u.path) then psegs
        else filterMiddle (bsegs ++ psegs)
      let resolved := popDots [] segments
      let resolved :=
        if segments.getLastD [] = ['.'] ∨ segments.getLastD [] = ['.', '.'] then
          resolved ++ [[]]
        else resolved
      let path := joinWith '/' resolved
      let path := if path = [] then ['/'] else path
      urlunsplit ⟨scheme, b.netloc, ofChars path, u.query, u.fragment⟩

/-- Models `os.path.basename` on a POSIX path: everything after the last
slash. -/
def basename (p : String) : String :=
  ofChars ((splitOnChar '/' (chars p)).getLastD [])

/-! ### The crawler state machine, embedding `src/scrape/scraper.py` -/

/-- Extraction result of one fetched page: the `src` attribute of every
`<img>` tag in document order (`none` when the tag has no `src`, matching
`img.get('src')`), and the `href` value of every `<a href=...>` tag in
document order (`soup.find_all('a', href=True)`). -/
structure Page where
  imgs : List (Option String)
  links : List String
deriving DecidableEq

/-- Pure network environment.  `fetchPage u = none` models any exception
escaping `requests.get(page, timeout=10)` / `resp.raise_for_status()`
(timeout, connection error, non-2xx status); `some pg` models a 2xx
response whose parsed HTML extracts to `pg`.  `fetchImage` plays the same
role for image requests, returning the body bytes on success. -/
structure Env where
  fetchPage : String → Option Page
  fetchImage : String → Option (List Nat)

/-- Crawl state: the script's module-level mutable variables, plus the
output directory contents and the trace of outbound requests.
`visited_pages` and `downloaded_images` are Python sets, modelled as
insertion-ordered duplicate-free lists queried by membership;
`pages_to_visit` is the frontier list; `files` maps a filename in the
output directory to the bytes last written to it; `page_requests` and
`img_requests` log every `requests.get` issued for pages and for images
respectively, in order. -/
structure CrawlState where
  visited_pages : List String
  pages_to_visit : List String
  downloaded_images : List String
  files : List (String × List Nat)
  page_requests : List String
  img_requests : List String
deriving DecidableEq

/-- Models `open(output_path, 'wb'); f.write(content)`: the new contents
replace whatever the name previously mapped to (reads see the most recent
write). -/
def writeFile (fs : List (String × List Nat)) (name : String) (content : List Nat) :
    List (String × List Nat) :=
  (name, content) :: fs

/-- Contents of a name in the output directory: the most recent write. -/
def readFile (fs : List (String × List Nat)) (name : String) : Option (List Nat) :=
  (fs.find? (fun e => e.1 = name)).map (fun e => e.2)

/-- Body of the `for img in soup.find_all('img')` loop for one `<img>` tag:
skip a missing or empty `src`, resolve it against the page, skip it when
already downloaded, otherwise request it and, on success with a non-empty
basename, write the bytes and record the URL as downloaded. -/
def processImg (env : Env) (page : String) (st : CrawlState) (srcAttr : Option String) :
    CrawlState :=
  match srcAttr with
  | none => st
  | some src =>
    if src = "" then st
    else
      let img_url := urljoin page src
      if img_url ∈ st.downloaded_images then st
      else
        let st1 := { st with img_requests := st.img_requests ++ [img_url] }
        match env.fetchImage img_url with
        | none => st1
        | some content =>
          let filename := basename (pathOf img_url)
          if filename = "" then st1
          else
            { st1 with
              files := writeFile st1.files filename content
              downloaded_images := st1.downloaded_images ++ [img_url] }

/-- Resolved form of a raw `href`: the scraper strips the fragment from the
raw attribute value and then resolves it against the discovering page. -/
def resolveLink (page href : String) : String := urljoin page (stripFragment href)

/-- Body of the `for a in soup.find_all('a', href=True)` loop for one
anchor: strip the fragment, resolve against the page, drop the link when
its authority differs from the session domain, and append it to the
frontier when it is in neither the visited set nor the frontier. -/
def processLink (domain page : String) (st : CrawlState) (hrefRaw : String) : CrawlState :=
  let link := resolveLink page hrefRaw
  if netlocOf link ≠ domain then st
  else if link ∈ st.visited_pages ∨ link ∈ st.pages_to_visit then st
  else { st with pages_to_visit := st.pages_to_visit ++ [link] }

/-- One iteration of the `while pages_to_visit` loop: pop the frontier head,
skip it when already visited, otherwise mark it visited, request it, and on
success process its images and then its links.  On an empty frontier the
state is returned unchanged (the loop exits). -/
def crawlStep (env : Env) (domain : String) (st : CrawlState) : CrawlState :=
  match st.pages_to_visit with
  | [] => st
  | page :: rest =>
    let st1 := { st with pages_to_visit := rest }
    if page ∈ st1.visited_pages then st1
    else
      let st2 := { st1 with
                   visited_pages := st1.visited_pages ++ [page]
                   page_requests := st1.page_requests ++ [page] }
      match env.fetchPage page with
      | none => st2
      | some pg =>
        let st3 := pg.imgs.foldl (processImg env page) st2
        pg.links.foldl (processLink domain page) st3

/-- Fuel-indexed iteration of the loop.  The loop of the script runs until
the frontier is empty; `crawl` runs at most `fuel` iterations, which
coincides with the script whenever `fuel` is at least the number of
iterations the script performs. -/
def crawl (env : Env) (domain : String) : Nat → CrawlState → CrawlState
  | 0, st => st
  | fuel + 1, st =>
    match st.pages_to_visit with
    | [] => st
    | _ :: _ => crawl env domain fuel (crawlStep env domain st)

/-- Initial state of a session seeded with `base`: empty sets, the frontier
holding only the seed, an empty output directory, no requests issued. -/
def crawlInit (base : String) : CrawlState :=
  ⟨[], [base], [], [], [], []⟩

/-- Whole-session run as the script performs it: the session domain is the
network authority of the seed URL. -/
def crawlRun (env : Env) (base : String) (fuel : Nat) : CrawlState :=
  crawl env (netlocOf base) fuel (crawlInit base)

/-! ### The link graph induced by an environment -/

/-- Hrefs extracted from a page (empty for a failed fetch). -/
def linksOf (env : Env) (page : String) : List String :=
  match env.fetchPage page with
  | none => []
  | some pg => pg.links

/-- In-domain successors of a page: its extracted hrefs, fragment-stripped,
resolved against the page, and restricted to the session domain.  These are
exactly the candidate URLs the scraper may append while processing the
page. -/
def succs (env : Env) (domain page : String) : List String :=
  ((linksOf env page).map (resolveLink page)).filter (fun l => netlocOf l = domain)

/-- Concatenated successors of a list of pages. -/
def succsAll (env : Env) (domain : String) : List String → List String
  | [] => []
  | u :: us => succs env domain u ++ succsAll env domain us

/-- Breadth-first layers of the link graph from the seed: first component
the URLs discovered in layers `0..d` (the seed is layer `0`), second
component layer `d` itself.  Layer `d + 1` consists of the in-domain
successors of layer `d` that no earlier layer contains. -/
def bfsLayers (env : Env) (domain base : String) : Nat → List String × List String
  | 0 => ([base], [base])
  | d + 1 =>
    let p := bfsLayers env domain base d
    let next := (succsAll env domain p.2).filter (fun v => v ∉ p.1)
    (p.1 ++ next, next)

/-- URLs first discovered at crawl depth `d`. -/
def layerOf (env : Env) (domain base : String) (d : Nat) : List String :=
  (bfsLayers env domain base d).2

/-- URLs discovered at crawl depth at most `d`. -/
def seenOf (env : Env) (domain base : String) (d : Nat) : List String :=
  (bfsLayers env domain base d).1

/-- A list of URLs is layer-monotone when discovery depths never decrease
along it: whenever one entry precedes another (in any two positions), the
discovery depth of the earlier entry is at most that of the later one.
Since the layers are pairwise disjoint, this is exactly the breadth-first
guarantee: every URL first discovered at depth `d` occurs before every URL
first discovered at depth `d + 1`. -/
def LayerMono (env : Env) (domain base : String) (l : List String) : Prop :=
  l.Pairwise (fun u v => ∀ d e, u ∈ layerOf env domain base d →
    v ∈ layerOf env domain base e → d ≤ e)

/-- Breadth-first invariant of a session state: the frontier is disjoint
from the visited set and duplicate-free; the request log is the visited
set; successors of visited pages are discovered (visited or pending); the
request log is layer-monotone; and the frontier splits into a block of
depth-`d` URLs followed by a block of depth-`d + 1` URLs, where every URL
of depth at most `d` is visited or in the first block and every visited URL
has depth at most `d`. -/
def BfsInv (env : Env) (domain base : String) (st : CrawlState) : Prop :=
  (∀ u ∈ st.pages_to_visit, u ∉ st.visited_pages) ∧
  st.pages_to_visit.Nodup ∧
  st.page_requests = st.visited_pages ∧
  (∀ u ∈ st.visited_pages, ∀ v ∈ succs env domain u,
      v ∈ st.visited_pages ∨ v ∈ st.pages_to_visit) ∧
  LayerMono env domain base st.page_requests ∧
  (∃ d F1 F2,
     st.pages_to_visit = F1 ++ F2 ∧
     (∀ u ∈ F1, u ∈ layerOf env domain base d) ∧
     (∀ u ∈ F2, u ∈ layerOf env domain base (d + 1)) ∧
     (∀ e, e ≤ d → ∀ u ∈ layerOf env domain base e,
        u ∈ st.visited_pages ∨ u ∈ F1) ∧
     (∀ u ∈ st.visited_pages, ∃ e, e ≤ d ∧ u ∈ layerOf env domain base e))

/-! ### Concrete environments used as test inputs -/

/-- Environment where every request fails. -/
def envDead : Env := ⟨fun _ => none, fun _ => none⟩

/-- Environment with one page that references the same image twice, while
every image request fails. -/
def envTwiceFail : Env :=
  { fetchPage := fun u =>
      if u = "http://x.test/" then some ⟨[some "a.jpg", some "a.jpg"], []⟩ else none
    fetchImage := fun _ => none }

/-- Environment with one page whose only link names the session host in
upper case. -/
def envUpper : Env :=
  { fetchPage := fun u =>
      if u = "http://a.test/" then some ⟨[], ["http://A.TEST/x"]⟩ else none
    fetchImage := fun _ => none }

/-- Environment with one page referencing one image under two fragments,
while every image request succeeds. -/
def envFrag : Env :=
  { fetchPage := fun u =>
      if u = "http://x.test/" then some ⟨[some "p.jpg#a", some "p.jpg#b"], []⟩ else none
    fetchImage := fun _ => some [1] }

/-- Environment with one page that references twice an image URL whose path
basename is empty, while every image request succeeds. -/
def envNoName : Env :=
  { fetchPage := fun u =>
      if u = "http://x.test/" then some ⟨[some "/", some "/"], []⟩ else none
    fetchImage := fun _ => some [7] }

/-- Two-page chain used as a breadth-first witness input. -/
def envChain : Env :=
  { fetchPage := fun u =>
      if u = "http://c.test/" then some ⟨[], ["/next.html"]⟩
      else if u = "http://c.test/next.html" then some ⟨[], []⟩
      else none
    fetchImage := fun _ => none }

/-- The scenario of the specification: a seed page linking `/about` and
showing `/logo.png`, an about page linking off-domain and showing the same
logo. -/
def envScenario : Env :=
  { fetchPage := fun u =>
      if u = "http://example.test/" then some ⟨[some "/logo.png"], ["/about"]⟩
      else if u = "http://example.test/about" then
        some ⟨[some "/logo.png"], ["http://other.test/"]⟩
      else none
    fetchImage := fun u =>
      if u = "http://example.test/logo.png" then some [9, 9] else none }

/-- State with one successfully downloaded image recorded, used as a
witness input. -/
def stDownloaded : CrawlState :=
  ⟨[], [], ["http://x.test/a.jpg"], [("a.jpg", [1])], [], ["http://x.test/a.jpg"]⟩

/-! ### Termination measure -/

/-- Termination measure of a state against a closed URL universe `R`: the
frontier length plus the number of distinct `R`-URLs that are neither
visited nor pending.  Every loop iteration decreases it by exactly one. -/
def crawlMeasure (R : List String) (st : CrawlState) : Nat :=
  st.pages_to_visit.length +
    (R.dedup.toFinset \ (st.visited_pages.toFinset ∪ st.pages_to_visit.toFinset)).card

/-! ### Sanity checks of the URL model (each equality matches CPython) -/

example : urljoin "http://x.test/" "a.jpg" = "http://x.test/a.jpg" := by decide
example : urljoin "http://x.test/a/b.html" "c/d.html" = "http://x.test/a/c/d.html" := by decide
example : urljoin "http://x.test/a/b.html" "../c.html" = "http://x.test/c.html" := by decide
example : urljoin "http://x.test/a/b.html" "/c.html" = "http://x.test/c.html" := by decide
example : urljoin "http://x.test/a/b.html" "http://y.test/c" = "http://y.test/c" := by decide
example : urljoin "http://x.test/p" "q.jpg#frag" = "http://x.test/q.jpg#frag" := by decide
example : urljoin "http://x.test/p/page.html" "" = "http://x.test/p/page.html" := by decide
example : urljoin "http://x.test/p" "?q=1" = "http://x.test/p?q=1" := by decide
example : urljoin "http://x.test/a/b.html" "//cdn.test/i.png" = "http://cdn.test/i.png" := by decide
example : urljoin "http://x.test/" "HTTP://Y.TEST/a" = "http://Y.TEST/a" := by decide
example : urljoin "http://x.test/page.html" "#top" = "http://x.test/page.html#top" := by decide
example : urljoin "http://x.test" "img.png" = "http://x.test/img.png" := by decide
example : urljoin "http://x.test/a/b/" "../../../up.png" = "http://x.test/up.png" := by decide
example : netlocOf "http://WWW.Example.COM/x" = "WWW.Example.COM" := by decide
example : pathOf "http://x.test/a/b.jpg#frag" = "/a/b.jpg" := by decide
example : basename "/a/b.jpg" = "b.jpg" := by decide
example : basename "/" = "" := by decide
example : stripFragment "page.html#sec" = "page.html" := by decide

/-! ### Sanity check: the specification's end-to-end scenario -/

example : (crawlRun envScenario "http://example.test/" 5).visited_pages
    = ["http://example.test/", "http://example.test/about"] := by decide
example : (crawlRun envScenario "http://example.test/" 5).page_requests
    = ["http://example.test/", "http://example.test/about"] := by decide
example : (crawlRun envScenario "http://example.test/" 5).img_requests
    = ["http://example.test/logo.png"] := by decide
example : (crawlRun envScenario "http://example.test/" 5).files
    = [("logo.png", [9, 9])] := by decide
example : (crawlRun envScenario "http://example.test/" 5).pages_to_visit = [] := by decide

/-! ### Field preservation of the per-tag loop bodies -/

theorem processImg_visited (env : Env) (page : String) (st : CrawlState) (s : Option String) :
    (processImg env page st s).visited_pages = st.visited_pages := by
  cases s with
  | none => rfl
  | some src =>
    simp only [processImg]
    split
    · rfl
    · split
      · rfl
      · split
        · rfl
        · split <;> rfl

theorem processImg_frontier (env : Env) (page : String) (st : CrawlState) (s : Option String) :
    (processImg env page st s).pages_to_visit = st.pages_to_visit := by
  cases s with
  | none => rfl
  | some src =>
    simp only [processImg]
    split
    · rfl
    · split
      · rfl
      · split
        · rfl
        · split <;> rfl

theorem processImg_pagereqs (env : Env) (page : String) (st : CrawlState) (s : Option String) :
    (processImg env page st s).page_requests = st.page_requests := by
  cases s with
  | none => rfl
  | some src =>
    simp only [processImg]
    split
    · rfl
    · split
      · rfl
      · split
        · rfl
        · split <;> rfl

theorem foldl_processImg_visited (env : Env) (page : String) :
    ∀ (srcs : List (Option String)) (st : CrawlState),
      (srcs.foldl (processImg env page) st).visited_pages = st.visited_pages := by
  intro srcs
  induction srcs with
  | nil => intro st; rfl
  | cons s t ih =>
    intro st
    simp only [List.foldl_cons]
    rw [ih, processImg_visited]

theorem foldl_processImg_frontier (env : Env) (page : String) :
    ∀ (srcs : List (Option String)) (st : CrawlState),
      (srcs.foldl (processImg env page) st).pages_to_visit = st.pages_to_visit := by
  intro srcs
  induction srcs with
  | nil => intro st; rfl
  | cons s t ih =>
    intro st
    simp only [List.foldl_cons]
    rw [ih, processImg_frontier]

theorem foldl_processImg_pagereqs (env : Env) (page : String) :
    ∀ (srcs : List (Option String)) (st : CrawlState),
      (srcs.foldl (processImg env page) st).page_requests = st.page_requests := by
  intro srcs
  induction srcs with
  | nil => intro st; rfl
  | cons s t ih =>
    intro st
    simp only [List.foldl_cons]
    rw [ih, processImg_pagereqs]

theorem processLink_untouched (domain page : String) (st : CrawlState) (href : String) :
    (processLink domain page st href).visited_pages = st.visited_pages ∧
    (processLink domain page st href).downloaded_images = st.downloaded_images ∧
    (processLink domain page st href).files = st.files ∧
    (processLink domain page st href).page_requests = st.page_requests ∧
    (processLink domain page st href).img_requests = st.img_requests := by
  simp only [processLink]
  split
  · exact ⟨rfl, rfl, rfl, rfl, rfl⟩
  · split <;> exact ⟨rfl, rfl, rfl, rfl, rfl⟩

theorem foldl_processLink_untouched (domain page : String) :
    ∀ (links : List String) (st : CrawlState),
      (links.foldl (processLink domain page) st).visited_pages = st.visited_pages ∧
      (links.foldl (processLink domain page) st).downloaded_images = st.downloaded_images ∧
      (links.foldl (processLink domain page) st).files = st.files ∧
      (links.foldl (processLink domain page) st).page_requests = st.page_requests ∧
      (links.foldl (processLink domain page) st).img_requests = st.img_requests := by
  intro links
  induction links with
  | nil => intro st; exact ⟨rfl, rfl, rfl, rfl, rfl⟩
  | cons h t ih =>
    intro st
    simp only [List.foldl_cons]
    obtain ⟨a, b, c, d, e⟩ := ih (processLink domain page st h)
    obtain ⟨a', b', c', d', e'⟩ := processLink_untouched domain page st h
    exact ⟨a.trans a', b.trans b', c.trans c', d.trans d', e.trans e'⟩

/-! ### Characterization of one link step -/

theorem processLink_append (domain page : String) (st : CrawlState) (href : String)
    (h1 : netlocOf (resolveLink page href) = domain)
    (h2 : resolveLink page href ∉ st.visited_pages)
    (h3 : resolveLink page href ∉ st.pages_to_visit) :
    processLink domain page st href =
      { st with pages_to_visit := st.pages_to_visit ++ [resolveLink page href] } := by
  simp only [processLink]
  rw [if_neg (fun hc => hc h1), if_neg (fun hc => hc.elim h2 h3)]

theorem processLink_drop (domain page : String) (st : CrawlState) (href : String)
    (h : netlocOf (resolveLink page href) ≠ domain ∨
         resolveLink page href ∈ st.visited_pages ∨
         resolveLink page href ∈ st.pages_to_visit) :
    processLink domain page st href = st := by
  simp only [processLink]
  by_cases hd : netlocOf (resolveLink page href) ≠ domain
  · rw [if_pos hd]
  · rw [if_neg hd]
    rcases h with h | h | h
    · exact absurd h hd
    · rw [if_pos (Or.inl h)]
    · rw [if_pos (Or.inr h)]

/-- Complete description of the effect of one page's link loop on the
frontier: it appends a duplicate-free block `new` of resolved, in-domain
links, each novel for the state at the start of the loop; `new` is a
subsequence of the in-domain resolved links in extraction order; and every
in-domain resolved link of the page ends up in the visited set or in the
final frontier. -/
theorem foldl_processLink_spec (domain page : String) :
    ∀ (links : List String) (st : CrawlState), ∃ new : List String,
      (links.foldl (processLink domain page) st).pages_to_visit
          = st.pages_to_visit ++ new ∧
      new.Nodup ∧
      new.Sublist ((links.map (resolveLink page)).filter (fun l => netlocOf l = domain)) ∧
      (∀ v ∈ new, v ∉ st.visited_pages ∧ v ∉ st.pages_to_visit) ∧
      (∀ h ∈ links, netlocOf (resolveLink page h) = domain →
        resolveLink page h ∈ st.visited_pages ∨
        resolveLink page h ∈ st.pages_to_visit ++ new) := by
  intro links
  induction links with
  | nil =>
    intro st
    exact ⟨[], by simp, List.nodup_nil, List.nil_sublist _, by simp, by simp⟩
  | cons h t ih =>
    intro st
    by_cases h1 : netlocOf (resolveLink page h) = domain
    · by_cases h2 : resolveLink page h ∈ st.visited_pages
      · obtain ⟨new, hA, hB, hC, hD, hE⟩ := ih st
        refine ⟨new, ?_, hB, ?_, hD, ?_⟩
        · simpa [List.foldl_cons, processLink_drop domain page st h (Or.inr (Or.inl h2))]
            using hA
        · rw [List.map_cons, List.filter_cons_of_pos (by simpa using h1)]
          exact hC.trans (List.sublist_cons_self _ _)
        · intro h' hmem hdom
          rcases List.mem_cons.mp hmem with rfl | hmem
          · exact Or.inl h2
          · exact hE h' hmem hdom
      · by_cases h3 : resolveLink page h ∈ st.pages_to_visit
        · obtain ⟨new, hA, hB, hC, hD, hE⟩ := ih st
          refine ⟨new, ?_, hB, ?_, hD, ?_⟩
          · simpa [List.foldl_cons, processLink_drop domain page st h (Or.inr (Or.inr h3))]
              using hA
          · rw [List.map_cons, List.filter_cons_of_pos (by simpa using h1)]
            exact hC.trans (List.sublist_cons_self _ _)
          · intro h' hmem hdom
            rcases List.mem_cons.mp hmem with rfl | hmem
            · exact Or.inr (List.mem_append_left _ h3)
            · exact hE h' hmem hdom
        · -- the link is novel and in domain: it is appended
          have hstep := processLink_append domain page st h h1 h2 h3
          obtain ⟨new, hA, hB, hC, hD, hE⟩ :=
            ih { st with pages_to_visit := st.pages_to_visit ++ [resolveLink page h] }
          refine ⟨resolveLink page h :: new, ?_, ?_, ?_, ?_, ?_⟩
          · rw [List.foldl_cons, hstep, hA]
            simp [List.append_assoc]
          · refine List.nodup_cons.mpr ⟨fun hc => ?_, hB⟩
            have := (hD _ hc).2
            simp at this
          · rw [List.map_cons, List.filter_cons_of_pos (by simpa using h1)]
            exact hC.cons₂ _
          · intro v hv
            rcases List.mem_cons.mp hv with rfl | hv
            · exact ⟨h2, h3⟩
            · obtain ⟨hv1, hv2⟩ := hD v hv
              refine ⟨hv1, fun hc => hv2 ?_⟩
              simp [hc]
          · intro h' hmem hdom
            rcases List.mem_cons.mp hmem with rfl | hmem
            · refine Or.inr (List.mem_append_right _ ?_)
              exact List.mem_cons_self _ _
            · rcases hE h' hmem hdom with hcase | hcase
              · exact Or.inl hcase
              · refine Or.inr ?_
                rw [List.append_assoc] at hcase
                simpa using hcase
    · obtain ⟨new, hA, hB, hC, hD, hE⟩ := ih st
      refine ⟨new, ?_, hB, ?_, hD, ?_⟩
      · simpa [List.foldl_cons, processLink_drop domain page st h (Or.inl h1)] using hA
      · rw [List.map_cons, List.filter_cons_of_neg (by simpa using h1)]
        exact hC
      · intro h' hmem hdom
        rcases List.mem_cons.mp hmem with rfl | hmem
        · exact absurd hdom h1
        · exact hE h' hmem hdom

/-! ### Characterization of one loop iteration -/

theorem crawlStep_done (env : Env) (domain : String) (st : CrawlState)
    (h : st.pages_to_visit = []) : crawlStep env domain st = st := by
  simp only [crawlStep, h]

theorem crawlStep_skip (env : Env) (domain : String) (st : CrawlState) (p : String)
    (rest : List String) (hF : st.pages_to_visit = p :: rest) (hv : p ∈ st.visited_pages) :
    crawlStep env domain st = { st with pages_to_visit := rest } := by
  simp only [crawlStep, hF]
  rw [if_pos hv]

/-- Reduction of one iteration on a frontier headed by an unvisited URL. -/
theorem crawlStep_new_unfold (env : Env) (domain : String) (st : CrawlState) (p : String)
    (rest : List String) (hF : st.pages_to_visit = p :: rest) (hv : p ∉ st.visited_pages) :
    crawlStep env domain st =
      (match env.fetchPage p with
       | none =>
         { st with pages_to_visit := rest,
                   visited_pages := st.visited_pages ++ [p],
                   page_requests := st.page_requests ++ [p] }
       | some pg =>
         pg.links.foldl (processLink domain p)
           (pg.imgs.foldl (processImg env p)
             { st with pages_to_visit := rest,
                       visited_pages := st.visited_pages ++ [p],
                       page_requests := st.page_requests ++ [p] })) := by
  simp only [crawlStep, hF]
  rw [if_neg hv]

/-- Complete description of one iteration on a frontier headed by a URL not
yet visited: the URL moves into the visited set and the request log, and
the frontier loses its head and gains a duplicate-free block of novel
in-domain links of that URL, in extraction order; moreover every in-domain
link of the URL is afterwards either visited or somewhere in the
frontier. -/
theorem crawlStep_new (env : Env) (domain : String) (st : CrawlState) (p : String)
    (rest : List String) (hF : st.pages_to_visit = p :: rest) (hv : p ∉ st.visited_pages) :
    ∃ new : List String,
      (crawlStep env domain st).visited_pages = st.visited_pages ++ [p] ∧
      (crawlStep env domain st).page_requests = st.page_requests ++ [p] ∧
      (crawlStep env domain st).pages_to_visit = rest ++ new ∧
      new.Nodup ∧
      new.Sublist (succs env domain p) ∧
      (∀ v ∈ new, v ∉ st.visited_pages ∧ v ≠ p ∧ v ∉ rest) ∧
      (∀ v ∈ succs env domain p, v ∈ st.visited_pages ∨ v = p ∨ v ∈ rest ++ new) := by
  have hred := crawlStep_new_unfold env domain st p rest hF hv
  cases hp : env.fetchPage p with
  | none =>
    rw [hp] at hred
    refine ⟨[], ?_, ?_, ?_, List.nodup_nil, ?_, by simp, ?_⟩
    · rw [hred]
    · rw [hred]
    · rw [hred]; simp
    · exact List.nil_sublist _
    · intro v hvm
      simp [succs, linksOf, hp] at hvm
  | some pg =>
    rw [hp] at hred
    set st2 : CrawlState :=
      { st with pages_to_visit := rest,
                visited_pages := st.visited_pages ++ [p],
                page_requests := st.page_requests ++ [p] } with hst2
    set st3 := pg.imgs.foldl (processImg env p) st2 with hst3
    have h3V : st3.visited_pages = st.visited_pages ++ [p] := by
      rw [hst3, foldl_processImg_visited]
    have h3F : st3.pages_to_visit = rest := by
      rw [hst3, foldl_processImg_frontier]
    have h3P : st3.page_requests = st.page_requests ++ [p] := by
      rw [hst3, foldl_processImg_pagereqs]
    obtain ⟨new, hA, hB, hC, hD, hE⟩ := foldl_processLink_spec domain p pg.links st3
    have hsucc : succs env domain p
        = (pg.links.map (resolveLink p)).filter (fun l => netlocOf l = domain) := by
      simp [succs, linksOf, hp]
    obtain ⟨u1, _, _, u4, _⟩ := foldl_processLink_untouched domain p pg.links st3
    refine ⟨new, ?_, ?_, ?_, hB, ?_, ?_, ?_⟩
    · rw [hred, u1, h3V]
    · rw [hred, u4, h3P]
    · rw [hred, hA, h3F]
    · rw [hsucc]; exact hC
    · intro v hvm
      obtain ⟨hD1, hD2⟩ := hD v hvm
      rw [h3V] at hD1
      rw [h3F] at hD2
      simp only [List.mem_append, List.mem_singleton] at hD1
      push_neg at hD1
      exact ⟨hD1.1, hD1.2, hD2⟩
    · intro v hvm
      rw [hsucc] at hvm
      obtain ⟨hm, hdom⟩ := List.mem_filter.mp hvm
      obtain ⟨h', hh', hres⟩ := List.mem_map.mp hm
      have hdom' : netlocOf (resolveLink p h') = domain := by
        rw [hres]; exact of_decide_eq_true hdom
      rcases hE h' hh' hdom' with hcase | hcase
      · rw [h3V] at hcase
        rw [← hres]
        simp only [List.mem_append, List.mem_singleton] at hcase
        rcases hcase with hc | hc
        · exact Or.inl hc
        · exact Or.inr (Or.inl hc)
      · rw [h3F] at hcase
        rw [← hres]
        exact Or.inr (Or.inr hcase)

/-! ### Unfolding the fuelled loop -/

theorem crawl_done (env : Env) (domain : String) (st : CrawlState)
    (h : st.pages_to_visit = []) : ∀ fuel, crawl env domain fuel st = st := by
  intro fuel
  cases fuel with
  | zero => rfl
  | succ n => simp only [crawl, h]

theorem crawl_succ (env : Env) (domain : String) (st : CrawlState) (p : String)
    (rest : List String) (fuel : Nat) (h : st.pages_to_visit = p :: rest) :
    crawl env domain (fuel + 1) st = crawl env domain fuel (crawlStep env domain st) := by
  simp only [crawl, h]

/-- Any property preserved by one iteration is preserved by the whole
fuelled loop. -/
theorem crawl_invariant (env : Env) (domain : String) (P : CrawlState → Prop)
    (hstep : ∀ st, P st → P (crawlStep env domain st)) :
    ∀ (fuel : Nat) (st : CrawlState), P st → P (crawl env domain fuel st) := by
  intro fuel
  induction fuel with
  | zero => exact fun st h => h
  | succ n ih =>
    intro st h
    cases hF : st.pages_to_visit with
    | nil => rw [crawl_done env domain st hF]; exact h
    | cons p rest =>
      rw [crawl_succ env domain st p rest n hF]
      exact ih _ (hstep st h)

/-! ### Case analysis of the per-image body -/

/-- The four possible outcomes of processing one non-empty `src`: skipped as
already downloaded, requested but failed, requested but dropped for an
empty filename, or fetched and written. -/
theorem processImg_cases (env : Env) (page : String) (st : CrawlState) (src : String)
    (hsrc : src ≠ "") :
    (urljoin page src ∈ st.downloaded_images ∧ processImg env page st (some src) = st) ∨
    (urljoin page src ∉ st.downloaded_images ∧ env.fetchImage (urljoin page src) = none ∧
      processImg env page st (some src)
        = { st with img_requests := st.img_requests ++ [urljoin page src] }) ∨
    (∃ content, urljoin page src ∉ st.downloaded_images ∧
      env.fetchImage (urljoin page src) = some content ∧
      basename (pathOf (urljoin page src)) = "" ∧
      processImg env page st (some src)
        = { st with img_requests := st.img_requests ++ [urljoin page src] }) ∨
    (∃ content, urljoin page src ∉ st.downloaded_images ∧
      env.fetchImage (urljoin page src) = some content ∧
      basename (pathOf (urljoin page src)) ≠ "" ∧
      processImg env page st (some src)
        = { st with
            img_requests := st.img_requests ++ [urljoin page src],
            files := writeFile st.files (basename (pathOf (urljoin page src))) content,
            downloaded_images := st.downloaded_images ++ [urljoin page src] }) := by
  by_cases hmem : urljoin page src ∈ st.downloaded_images
  · refine Or.inl ⟨hmem, ?_⟩
    simp only [processImg]
    rw [if_neg hsrc, if_pos hmem]
  · cases hfetch : env.fetchImage (urljoin page src) with
    | none =>
      refine Or.inr (Or.inl ⟨hmem, rfl, ?_⟩)
      simp only [processImg]
      rw [if_neg hsrc, if_neg hmem, hfetch]
    | some content =>
      by_cases hfn : basename (pathOf (urljoin page src)) = ""
      · refine Or.inr (Or.inr (Or.inl ⟨content, hmem, rfl, hfn, ?_⟩))
        simp only [processImg]
        rw [if_neg hsrc, if_neg hmem, hfetch]
        simp only [if_pos hfn]
      · refine Or.inr (Or.inr (Or.inr ⟨content, hmem, rfl, hfn, ?_⟩))
        simp only [processImg]
        rw [if_neg hsrc, if_neg hmem, hfetch]
        simp only [if_neg hfn]

/-- Once an image URL is recorded as downloaded, processing further `<img>`
tags issues no request for it and records it no further. -/
theorem processImg_frozen (env : Env) (page : String) (st : CrawlState) (s : Option String)
    (u : String) (hu : u ∈ st.downloaded_images) :
    u ∈ (processImg env page st s).downloaded_images ∧
    (processImg env page st s).img_requests.count u = st.img_requests.count u ∧
    (processImg env page st s).downloaded_images.count u = st.downloaded_images.count u := by
  cases s with
  | none => exact ⟨hu, rfl, rfl⟩
  | some src =>
    by_cases hsrc : src = ""
    · subst hsrc
      exact ⟨hu, rfl, rfl⟩
    · rcases processImg_cases env page st src hsrc with
        ⟨_, heq⟩ | ⟨hm, _, heq⟩ | ⟨c, hm, _, _, heq⟩ | ⟨c, hm, _, _, heq⟩ <;> rw [heq]
      · exact ⟨hu, rfl, rfl⟩
      · refine ⟨hu, ?_, rfl⟩
        have hne : u ∉ [urljoin page src] := by
          intro hc
          rw [List.mem_singleton] at hc
          exact hm (hc ▸ hu)
        simp [List.count_append, List.count_eq_zero.mpr hne]
      · refine ⟨hu, ?_, rfl⟩
        have hne : u ∉ [urljoin page src] := by
          intro hc
          rw [List.mem_singleton] at hc
          exact hm (hc ▸ hu)
        simp [List.count_append, List.count_eq_zero.mpr hne]
      · have hne : u ∉ [urljoin page src] := by
          intro hc
          rw [List.mem_singleton] at hc
          exact hm (hc ▸ hu)
        refine ⟨List.mem_append_left _ hu, ?_, ?_⟩
        · simp [List.count_append, List.count_eq_zero.mpr hne]
        · simp [List.count_append, List.count_eq_zero.mpr hne]

/-- Processing one `<img>` tag extends the downloaded set only by URLs not
previously in it. -/
theorem processImg_dl_mono (env : Env) (page : String) (st : CrawlState) (s : Option String) :
    ∃ ext, (processImg env page st s).downloaded_images = st.downloaded_images ++ ext ∧
      ∀ v ∈ ext, v ∉ st.downloaded_images := by
  cases s with
  | none => exact ⟨[], by simp [processImg], by simp⟩
  | some src =>
    by_cases hsrc : src = ""
    · subst hsrc
      exact ⟨[], by simp [processImg], by simp⟩
    · rcases processImg_cases env page st src hsrc with
        ⟨_, heq⟩ | ⟨hm, _, heq⟩ | ⟨c, hm, _, _, heq⟩ | ⟨c, hm, _, _, heq⟩ <;> rw [heq]
      · exact ⟨[], by simp, by simp⟩
      · exact ⟨[], by simp, by simp⟩
      · exact ⟨[], by simp, by simp⟩
      · refine ⟨[urljoin page src], rfl, ?_⟩
        intro v hv
        rw [List.mem_singleton] at hv
        exact hv ▸ hm

theorem foldl_processImg_frozen (env : Env) (page : String) :
    ∀ (srcs : List (Option String)) (st : CrawlState) (u : String),
      u ∈ st.downloaded_images →
      u ∈ (srcs.foldl (processImg env page) st).downloaded_images ∧
      (srcs.foldl (processImg env page) st).img_requests.count u = st.img_requests.count u ∧
      (srcs.foldl (processImg env page) st).downloaded_images.count u
          = st.downloaded_images.count u := by
  intro srcs
  induction srcs with
  | nil => exact fun st u hu => ⟨hu, rfl, rfl⟩
  | cons s t ih =>
    intro st u hu
    obtain ⟨h1, h2, h3⟩ := processImg_frozen env page st s u hu
    obtain ⟨g1, g2, g3⟩ := ih (processImg env page st s) u h1
    exact ⟨g1, g2.trans h2, g3.trans h3⟩

theorem foldl_processImg_dl_mono (env : Env) (page : String) :
    ∀ (srcs : List (Option String)) (st : CrawlState),
      ∃ ext, (srcs.foldl (processImg env page) st).downloaded_images
          = st.downloaded_images ++ ext := by
  intro srcs
  induction srcs with
  | nil => exact fun st => ⟨[], by simp⟩
  | cons s t ih =>
    intro st
    obtain ⟨e1, h1, _⟩ := processImg_dl_mono env page st s
    obtain ⟨e2, h2⟩ := ih (processImg env page st s)
    refine ⟨e1 ++ e2, ?_⟩
    simp only [List.foldl_cons]
    rw [h2, h1, List.append_assoc]

theorem processImg_dl_nodup (env : Env) (page : String) (st : CrawlState) (s : Option String)
    (h : st.downloaded_images.Nodup) :
    (processImg env page st s).downloaded_images.Nodup := by
  cases s with
  | none => exact h
  | some src =>
    by_cases hsrc : src = ""
    · subst hsrc
      exact h
    · rcases processImg_cases env page st src hsrc with
        ⟨_, heq⟩ | ⟨_, _, heq⟩ | ⟨c, _, _, _, heq⟩ | ⟨c, hm, _, _, heq⟩ <;> rw [heq]
      · exact h
      · exact h
      · exact h
      · exact List.nodup_append.mpr
          ⟨h, List.nodup_singleton _, fun a ha hb => hm ((List.mem_singleton.mp hb) ▸ ha)⟩

theorem foldl_processImg_dl_nodup (env : Env) (page : String) :
    ∀ (srcs : List (Option String)) (st : CrawlState),
      st.downloaded_images.Nodup →
      (srcs.foldl (processImg env page) st).downloaded_images.Nodup := by
  intro srcs
  induction srcs with
  | nil => exact fun st h => h
  | cons s t ih =>
    intro st h
    exact ih (processImg env page st s) (processImg_dl_nodup env page st s h)

/-! ### Download dedup across whole iterations -/

theorem crawlStep_frozen (env : Env) (domain : String) (st : CrawlState) (u : String)
    (hu : u ∈ st.downloaded_images) :
    u ∈ (crawlStep env domain st).downloaded_images ∧
    (crawlStep env domain st).img_requests.count u = st.img_requests.count u ∧
    (crawlStep env domain st).downloaded_images.count u
        = st.downloaded_images.count u := by
  cases hF : st.pages_to_visit with
  | nil => rw [crawlStep_done env domain st hF]; exact ⟨hu, rfl, rfl⟩
  | cons p rest =>
    by_cases hv : p ∈ st.visited_pages
    · rw [crawlStep_skip env domain st p rest hF hv]
      exact ⟨hu, rfl, rfl⟩
    · rw [crawlStep_new_unfold env domain st p rest hF hv]
      cases hp : env.fetchPage p with
      | none => exact ⟨hu, rfl, rfl⟩
      | some pg =>
        set st2 : CrawlState :=
          { st with pages_to_visit := rest,
                    visited_pages := st.visited_pages ++ [p],
                    page_requests := st.page_requests ++ [p] } with hst2
        have hu2 : u ∈ st2.downloaded_images := hu
        obtain ⟨m1, m2, m3⟩ := foldl_processImg_frozen env p pg.imgs st2 u hu2
        obtain ⟨_, w2, _, _, w5⟩ :=
          foldl_processLink_untouched domain p pg.links (pg.imgs.foldl (processImg env p) st2)
        refine ⟨?_, ?_, ?_⟩
        · rw [w2]; exact m1
        · rw [w5]; exact m2
        · rw [w2]; exact m3

theorem crawlStep_dl_nodup (env : Env) (domain : String) (st : CrawlState)
    (h : st.downloaded_images.Nodup) :
    (crawlStep env domain st).downloaded_images.Nodup := by
  cases hF : st.pages_to_visit with
  | nil => rw [crawlStep_done env domain st hF]; exact h
  | cons p rest =>
    by_cases hv : p ∈ st.visited_pages
    · rw [crawlStep_skip env domain st p rest hF hv]; exact h
    · rw [crawlStep_new_unfold env domain st p rest hF hv]
      cases hp : env.fetchPage p with
      | none => exact h
      | some pg =>
        set st2 : CrawlState :=
          { st with pages_to_visit := rest,
                    visited_pages := st.visited_pages ++ [p],
                    page_requests := st.page_requests ++ [p] } with hst2
        obtain ⟨_, w2, _, _, _⟩ :=
          foldl_processLink_untouched domain p pg.links (pg.imgs.foldl (processImg env p) st2)
        rw [w2]
        exact foldl_processImg_dl_nodup env p pg.imgs st2 h

theorem crawl_frozen (env : Env) (domain : String) (fuel : Nat) (st : CrawlState)
    (u : String) (hu : u ∈ st.downloaded_images) :
    u ∈ (crawl env domain fuel st).downloaded_images ∧
    (crawl env domain fuel st).img_requests.count u = st.img_requests.count u ∧
    (crawl env domain fuel st).downloaded_images.count u
        = st.downloaded_images.count u := by
  refine crawl_invariant env domain
    (fun s => u ∈ s.downloaded_images ∧
      s.img_requests.count u = st.img_requests.count u ∧
      s.downloaded_images.count u = st.downloaded_images.count u) ?_ fuel st ⟨hu, rfl, rfl⟩
  intro s hs
  obtain ⟨a, b, c⟩ := crawlStep_frozen env domain s u hs.1
  exact ⟨a, b.trans hs.2.1, c.trans hs.2.2⟩

theorem crawl_dl_nodup (env : Env) (domain : String) (fuel : Nat) (st : CrawlState)
    (h : st.downloaded_images.Nodup) :
    (crawl env domain fuel st).downloaded_images.Nodup :=
  crawl_invariant env domain (fun s => s.downloaded_images.Nodup)
    (fun s hs => crawlStep_dl_nodup env domain s hs) fuel st h

/-! ### The basic frontier and visited-set invariant -/

/-- One iteration preserves: a duplicate-free frontier, disjointness of the
frontier from the visited set, the identity of the visited set with the
page-request log, and a duplicate-free visited set. -/
theorem crawlStep_basic (env : Env) (domain : String) (st : CrawlState)
    (h : st.pages_to_visit.Nodup ∧ (∀ u ∈ st.pages_to_visit, u ∉ st.visited_pages) ∧
         st.page_requests = st.visited_pages ∧ st.visited_pages.Nodup) :
    (crawlStep env domain st).pages_to_visit.Nodup ∧
    (∀ u ∈ (crawlStep env domain st).pages_to_visit,
        u ∉ (crawlStep env domain st).visited_pages) ∧
    (crawlStep env domain st).page_requests = (crawlStep env domain st).visited_pages ∧
    (crawlStep env domain st).visited_pages.Nodup := by
  obtain ⟨h1, h2, h3, h4⟩ := h
  cases hF : st.pages_to_visit with
  | nil => rw [crawlStep_done env domain st hF]; exact ⟨h1, h2, h3, h4⟩
  | cons p rest =>
    have hv : p ∉ st.visited_pages := h2 p (by rw [hF]; exact List.mem_cons_self p rest)
    have hrest : rest.Nodup ∧ p ∉ rest := by
      rw [hF] at h1
      exact ⟨(List.nodup_cons.mp h1).2, (List.nodup_cons.mp h1).1⟩
    obtain ⟨new, e1, e2, e3, hnd, _, hnov, _⟩ := crawlStep_new env domain st p rest hF hv
    refine ⟨?_, ?_, ?_, ?_⟩
    · rw [e3]
      refine List.nodup_append.mpr ⟨hrest.1, hnd, ?_⟩
      intro a ha hb
      exact (hnov a hb).2.2 ha
    · intro u humem
      rw [e3] at humem
      rw [e1]
      simp only [List.mem_append, List.mem_singleton, not_or]
      rcases List.mem_append.mp humem with hu | hu
      · refine ⟨h2 u ?_, ?_⟩
        · rw [hF]; exact List.mem_cons_of_mem p hu
        · intro hc; exact hrest.2 (hc ▸ hu)
      · obtain ⟨n1, n2, _⟩ := hnov u hu
        exact ⟨n1, n2⟩
    · rw [e1, e2, h3]
    · rw [e1]
      exact List.nodup_append.mpr
        ⟨h4, List.nodup_singleton _, fun a ha hb => hv ((List.mem_singleton.mp hb) ▸ ha)⟩

/-- The basic invariant holds at every state the fuelled loop reaches from
the initial state of a session. -/
theorem crawl_basic (env : Env) (domain base : String) (fuel : Nat) :
    (crawl env domain fuel (crawlInit base)).pages_to_visit.Nodup ∧
    (∀ u ∈ (crawl env domain fuel (crawlInit base)).pages_to_visit,
        u ∉ (crawl env domain fuel (crawlInit base)).visited_pages) ∧
    (crawl env domain fuel (crawlInit base)).page_requests
        = (crawl env domain fuel (crawlInit base)).visited_pages ∧
    (crawl env domain fuel (crawlInit base)).visited_pages.Nodup := by
  refine crawl_invariant env domain
    (fun s => s.pages_to_visit.Nodup ∧ (∀ u ∈ s.pages_to_visit, u ∉ s.visited_pages) ∧
      s.page_requests = s.visited_pages ∧ s.visited_pages.Nodup)
    (fun s hs => crawlStep_basic env domain s hs) fuel (crawlInit base) ?_
  refine ⟨List.nodup_singleton _, ?_, rfl, List.nodup_nil⟩
  intro u _ hc
  exact (List.not_mem_nil u) hc

/-! ### Breadth-first layers -/

theorem seen_succ (env : Env) (domain base : String) (d : Nat) :
    seenOf env domain base (d + 1)
      = seenOf env domain base d ++ layerOf env domain base (d + 1) := rfl

theorem layer_succ_eq (env : Env) (domain base : String) (d : Nat) :
    layerOf env domain base (d + 1)
      = (succsAll env domain (layerOf env domain base d)).filter
          (fun v => v ∉ seenOf env domain base d) := rfl

theorem mem_succsAll (env : Env) (domain : String) :
    ∀ (l : List String) (v : String),
      v ∈ succsAll env domain l ↔ ∃ u ∈ l, v ∈ succs env domain u := by
  intro l
  induction l with
  | nil => simp [succsAll]
  | cons u us ih =>
    intro v
    simp only [succsAll, List.mem_append, ih, List.mem_cons]
    constructor
    · rintro (h | ⟨w, hw, hv⟩)
      · exact ⟨u, Or.inl rfl, h⟩
      · exact ⟨w, Or.inr hw, hv⟩
    · rintro ⟨w, hw | hw, hv⟩
      · exact Or.inl (hw ▸ hv)
      · exact Or.inr ⟨w, hw, hv⟩

theorem layer_subset_seen (env : Env) (domain base : String) (d : Nat) (u : String)
    (h : u ∈ layerOf env domain base d) : u ∈ seenOf env domain base d := by
  cases d with
  | zero => exact h
  | succ n => rw [seen_succ]; exact List.mem_append_right _ h

theorem seen_mono (env : Env) (domain base : String) (u : String) :
    ∀ {d e : Nat}, d ≤ e → u ∈ seenOf env domain base d → u ∈ seenOf env domain base e := by
  intro d e h hm
  induction e with
  | zero =>
    have : d = 0 := Nat.le_zero.mp h
    exact this ▸ hm
  | succ n ih =>
    by_cases hd : d ≤ n
    · rw [seen_succ]
      exact List.mem_append_left _ (ih hd)
    · have : d = n + 1 := by omega
      exact this ▸ hm

theorem layer_not_seen (env : Env) (domain base : String) (d : Nat) (v : String)
    (h : v ∈ layerOf env domain base (d + 1)) : v ∉ seenOf env domain base d := by
  rw [layer_succ_eq] at h
  exact of_decide_eq_true (List.mem_filter.mp h).2

theorem mem_layer_succ (env : Env) (domain base : String) (d : Nat) (u v : String)
    (hu : u ∈ layerOf env domain base d) (hv : v ∈ succs env domain u)
    (hns : v ∉ seenOf env domain base d) : v ∈ layerOf env domain base (d + 1) := by
  rw [layer_succ_eq]
  exact List.mem_filter.mpr
    ⟨(mem_succsAll env domain _ v).mpr ⟨u, hu, hv⟩, decide_eq_true hns⟩

theorem layer_unique (env : Env) (domain base : String) (u : String) :
    ∀ {d e : Nat}, u ∈ layerOf env domain base d → u ∈ layerOf env domain base e →
      d = e := by
  have key : ∀ d e, d < e → u ∈ layerOf env domain base d →
      u ∈ layerOf env domain base e → False := by
    intro d e hlt h1 h2
    obtain ⟨k, rfl⟩ : ∃ k, e = k + 1 := ⟨e - 1, by omega⟩
    exact layer_not_seen env domain base k u h2
      (seen_mono env domain base u (by omega)
        (layer_subset_seen env domain base d u h1))
  intro d e h1 h2
  rcases lt_trichotomy d e with h | h | h
  · exact absurd h1 (fun hc => key d e h hc h2)
  · exact h
  · exact absurd h2 (fun hc => key e d h hc h1)

theorem mem_seen_iff (env : Env) (domain base : String) (u : String) :
    ∀ (d : Nat), u ∈ seenOf env domain base d ↔
      ∃ e, e ≤ d ∧ u ∈ layerOf env domain base e := by
  intro d
  induction d with
  | zero =>
    constructor
    · exact fun h => ⟨0, Nat.le_refl 0, h⟩
    · rintro ⟨e, he, hm⟩
      have : e = 0 := Nat.le_zero.mp he
      exact this ▸ layer_subset_seen env domain base e u hm
  | succ n ih =>
    rw [seen_succ]
    constructor
    · intro h
      rcases List.mem_append.mp h with h | h
      · obtain ⟨e, he, hm⟩ := ih.mp h
        exact ⟨e, by omega, hm⟩
      · exact ⟨n + 1, Nat.le_refl _, h⟩
    · rintro ⟨e, he, hm⟩
      by_cases hd : e ≤ n
      · exact List.mem_append_left _ (ih.mpr ⟨e, hd, hm⟩)
      · have : e = n + 1 := by omega
        exact List.mem_append_right _ (this ▸ hm)

/-! ### Preservation of the breadth-first invariant -/

theorem crawlStep_bfs (env : Env) (domain base : String) (st : CrawlState)
    (h : BfsInv env domain base st) : BfsInv env domain base (crawlStep env domain st) := by
  obtain ⟨hdisj, hnodup, hpr, hclo, hmono, d, F1, F2, hsplit, hL1, hL2, hcover, hdepth⟩ := h
  cases hF : st.pages_to_visit with
  | nil =>
    rw [crawlStep_done env domain st hF]
    exact ⟨hdisj, hnodup, hpr, hclo, hmono, d, F1, F2, hsplit, hL1, hL2, hcover, hdepth⟩
  | cons p rest =>
    have hv : p ∉ st.visited_pages := hdisj p (by rw [hF]; exact List.mem_cons_self p rest)
    have hprest : p ∉ rest := by
      rw [hF] at hnodup
      exact (List.nodup_cons.mp hnodup).1
    have hrestnd : rest.Nodup := by
      rw [hF] at hnodup
      exact (List.nodup_cons.mp hnodup).2
    obtain ⟨new, e1, e2, e3, hnd, hsl, hnov, hcloP⟩ := crawlStep_new env domain st p rest hF hv
    -- frontier disjointness and freedom from duplicates
    have hdisj' : ∀ u ∈ (crawlStep env domain st).pages_to_visit,
        u ∉ (crawlStep env domain st).visited_pages := by
      intro u hu
      rw [e3] at hu
      rw [e1]
      simp only [List.mem_append, List.mem_singleton, not_or]
      rcases List.mem_append.mp hu with hu | hu
      · refine ⟨hdisj u (by rw [hF]; exact List.mem_cons_of_mem p hu), ?_⟩
        intro hc
        exact hprest (hc ▸ hu)
      · obtain ⟨n1, n2, _⟩ := hnov u hu
        exact ⟨n1, n2⟩
    have hnodup' : (crawlStep env domain st).pages_to_visit.Nodup := by
      rw [e3]
      exact List.nodup_append.mpr ⟨hrestnd, hnd, fun a ha hb => (hnov a hb).2.2 ha⟩
    have hpr' : (crawlStep env domain st).page_requests
        = (crawlStep env domain st).visited_pages := by
      rw [e1, e2, hpr]
    -- closure of visited successors
    have hclo' : ∀ u ∈ (crawlStep env domain st).visited_pages,
        ∀ v ∈ succs env domain u,
          v ∈ (crawlStep env domain st).visited_pages ∨
          v ∈ (crawlStep env domain st).pages_to_visit := by
      intro u hu v hvs
      rw [e1] at hu ⊢
      rw [e3]
      rcases List.mem_append.mp hu with hu | hu
      · rcases hclo u hu v hvs with hc | hc
        · exact Or.inl (List.mem_append_left _ hc)
        · rw [hF] at hc
          rcases List.mem_cons.mp hc with rfl | hc
          · exact Or.inl (List.mem_append_right _ (List.mem_singleton.mpr rfl))
          · exact Or.inr (List.mem_append_left _ hc)
      · have hup : u = p := List.mem_singleton.mp hu
        subst hup
        rcases hcloP v hvs with hc | hc | hc
        · exact Or.inl (List.mem_append_left _ hc)
        · exact Or.inl (List.mem_append_right _ (List.mem_singleton.mpr hc))
        · exact Or.inr hc
    -- a helper for the log monotonicity, parameterized by the layer of `p`
    have hmonoAt : ∀ dp, d ≤ dp → p ∈ layerOf env domain base dp →
        LayerMono env domain base (crawlStep env domain st).page_requests := by
      intro dp hdp hpl
      rw [e2, hpr]
      rw [LayerMono, List.pairwise_append]
      refine ⟨hpr ▸ hmono, List.pairwise_singleton _ _, ?_⟩
      intro a ha b hb aa bb haa hbb
      have hbp : b = p := List.mem_singleton.mp hb
      subst hbp
      obtain ⟨e, he, hae⟩ := hdepth a ha
      have h1 : aa = e := layer_unique env domain base a haa hae
      have h2 : bb = dp := layer_unique env domain base b hbb hpl
      omega
    cases F1 with
    | nil =>
      -- the popped URL heads the depth-(d+1) block
      have hF2 : F2 = p :: rest := by
        rw [hF] at hsplit
        simpa using hsplit.symm
      have hpl : p ∈ layerOf env domain base (d + 1) :=
        hL2 p (by rw [hF2]; exact List.mem_cons_self p rest)
      -- every URL of depth d + 1 is already visited or pending
      have hlayerd1 : ∀ v ∈ layerOf env domain base (d + 1),
          v ∈ st.visited_pages ∨ v ∈ p :: rest := by
        intro v hvl
        rw [layer_succ_eq] at hvl
        obtain ⟨hvall, _⟩ := List.mem_filter.mp hvl
        obtain ⟨u, hul, hvs⟩ := (mem_succsAll env domain _ v).mp hvall
        have huV : u ∈ st.visited_pages := by
          rcases hcover d (Nat.le_refl d) u hul with hc | hc
          · exact hc
          · exact absurd hc (List.not_mem_nil u)
        rcases hclo u huV v hvs with hc | hc
        · exact Or.inl hc
        · rw [hF] at hc
          exact Or.inr hc
      have hnew2 : ∀ v ∈ new, v ∈ layerOf env domain base (d + 2) := by
        intro v hvn
        have hvs : v ∈ succs env domain p := hsl.subset hvn
        obtain ⟨n1, n2, n3⟩ := hnov v hvn
        refine mem_layer_succ env domain base (d + 1) p v hpl hvs ?_
        intro hseen
        obtain ⟨e, he, hlayer⟩ := (mem_seen_iff env domain base v (d + 1)).mp hseen
        have hVor : v ∈ st.visited_pages ∨ v ∈ p :: rest := by
          by_cases hed : e ≤ d
          · rcases hcover e hed v hlayer with hc | hc
            · exact Or.inl hc
            · exact absurd hc (List.not_mem_nil v)
          · have : e = d + 1 := by omega
            exact hlayerd1 v (this ▸ hlayer)
        rcases hVor with hc | hc
        · exact n1 hc
        · rcases List.mem_cons.mp hc with hc | hc
          · exact n2 hc
          · exact n3 hc
      refine ⟨hdisj', hnodup', hpr', hclo', hmonoAt (d + 1) (by omega) hpl,
        d + 1, rest, new, ?_, ?_, ?_, ?_, ?_⟩
      · exact e3
      · intro u hu
        exact hL2 u (by rw [hF2]; exact List.mem_cons_of_mem p hu)
      · exact hnew2
      · intro e he u hul
        rw [e1]
        by_cases hed : e ≤ d
        · rcases hcover e hed u hul with hc | hc
          · exact Or.inl (List.mem_append_left _ hc)
          · exact absurd hc (List.not_mem_nil u)
        · have : e = d + 1 := by omega
          rcases hlayerd1 u (this ▸ hul) with hc | hc
          · exact Or.inl (List.mem_append_left _ hc)
          · rcases List.mem_cons.mp hc with rfl | hc
            · exact Or.inl (List.mem_append_right _ (List.mem_singleton.mpr rfl))
            · exact Or.inr hc
      · intro u hu
        rw [e1] at hu
        rcases List.mem_append.mp hu with hu | hu
        · obtain ⟨e, he, hm⟩ := hdepth u hu
          exact ⟨e, by omega, hm⟩
        · have hup : u = p := List.mem_singleton.mp hu
          exact ⟨d + 1, Nat.le_refl _, hup ▸ hpl⟩
    | cons f F1' =>
      -- the popped URL heads the depth-d block
      have hinj : p = f ∧ rest = F1' ++ F2 := by
        rw [hF] at hsplit
        simp only [List.cons_append] at hsplit
        exact ⟨(List.cons.injEq _ _ _ _).mp hsplit |>.1,
               (List.cons.injEq _ _ _ _).mp hsplit |>.2⟩
      obtain ⟨hpf, hrest⟩ := hinj
      have hpl : p ∈ layerOf env domain base d :=
        hpf ▸ hL1 f (List.mem_cons_self f F1')
      have hnew2 : ∀ v ∈ new, v ∈ layerOf env domain base (d + 1) := by
        intro v hvn
        have hvs : v ∈ succs env domain p := hsl.subset hvn
        obtain ⟨n1, n2, n3⟩ := hnov v hvn
        refine mem_layer_succ env domain base d p v hpl hvs ?_
        intro hseen
        obtain ⟨e, he, hlayer⟩ := (mem_seen_iff env domain base v d).mp hseen
        rcases hcover e he v hlayer with hc | hc
        · exact n1 hc
        · rcases List.mem_cons.mp hc with hc | hc
          · exact n2 (hc.trans hpf.symm)
          · exact n3 (by rw [hrest]; exact List.mem_append_left _ hc)
      refine ⟨hdisj', hnodup', hpr', hclo', hmonoAt d (Nat.le_refl d) hpl,
        d, F1', F2 ++ new, ?_, ?_, ?_, ?_, ?_⟩
      · rw [e3, hrest, List.append_assoc]
      · intro u hu
        exact hL1 u (List.mem_cons_of_mem f hu)
      · intro u hu
        rcases List.mem_append.mp hu with hu | hu
        · exact hL2 u hu
        · exact hnew2 u hu
      · intro e he u hul
        rw [e1]
        rcases hcover e he u hul with hc | hc
        · exact Or.inl (List.mem_append_left _ hc)
        · rcases List.mem_cons.mp hc with hc | hc
          · exact Or.inl (List.mem_append_right _
              (List.mem_singleton.mpr (hc.trans hpf.symm)))
          · exact Or.inr hc
      · intro u hu
        rw [e1] at hu
        rcases List.mem_append.mp hu with hu | hu
        · exact hdepth u hu
        · have hup : u = p := List.mem_singleton.mp hu
          exact ⟨d, Nat.le_refl _, hup ▸ hpl⟩

/-- The breadth-first invariant holds at every state a session reaches. -/
theorem crawl_bfs (env : Env) (domain base : String) (fuel : Nat) :
    BfsInv env domain base (crawl env domain fuel (crawlInit base)) := by
  refine crawl_invariant env domain (BfsInv env domain base)
    (fun s hs => crawlStep_bfs env domain base s hs) fuel (crawlInit base) ?_
  refine ⟨?_, List.nodup_singleton _, rfl, ?_, List.Pairwise.nil, 0, [base], [], ?_, ?_, ?_, ?_, ?_⟩
  · intro u _ hc
    exact (List.not_mem_nil u) hc
  · intro u hu
    exact absurd hu (List.not_mem_nil u)
  · rfl
  · intro u hu
    exact hu
  · intro u hu
    exact absurd hu (List.not_mem_nil u)
  · intro e he u hu
    have h0 : e = 0 := Nat.le_zero.mp he
    subst h0
    exact Or.inr hu
  · intro u hu
    exact absurd hu (List.not_mem_nil u)

/-! ### Claims -/

/-- C1, counterexample: on a page referencing the same image twice while the
image request fails, the Image Downloader is invoked twice for the one
distinct image URL — a failed first attempt is not recorded in the
downloaded set, so the second reference is not skipped.  This refutes the
claim that a URL handed to the Downloader once is skipped afterwards
"regardless of whether that first download attempt succeeded or failed". -/
theorem C1_counterexample :
    (crawlRun envTwiceFail "http://x.test/" 2).img_requests.count "http://x.test/a.jpg" = 2 ∧
    ¬ ((crawlRun envTwiceFail "http://x.test/" 2).img_requests.count
        "http://x.test/a.jpg" ≤ 1) := by
  decide

/-- C1 (amended): an image URL that has been successfully downloaded is
never handed to the Downloader again during the session — its request
count and its occurrence count in the downloaded set stay fixed from then
on — and the downloaded set never holds duplicates; only failed attempts
(network failure or empty filename) leave the URL unrecorded and eligible
for retry. -/
theorem C1_success_dedup :
    (∀ (env : Env) (domain : String) (fuel : Nat) (st : CrawlState) (u : String),
      u ∈ st.downloaded_images →
      u ∈ (crawl env domain fuel st).downloaded_images ∧
      (crawl env domain fuel st).img_requests.count u = st.img_requests.count u ∧
      (crawl env domain fuel st).downloaded_images.count u
          = st.downloaded_images.count u) ∧
    (∀ (env : Env) (base : String) (fuel : Nat),
      (crawlRun env base fuel).downloaded_images.Nodup) := by
  constructor
  · exact fun env domain fuel st u hu => crawl_frozen env domain fuel st u hu
  · intro env base fuel
    exact crawl_dl_nodup env (netlocOf base) fuel (crawlInit base) List.nodup_nil

/-- C1, witness for the amended claim at a concrete downloaded URL. -/
theorem C1_success_dedup_witness :
    ("http://x.test/a.jpg" ∈ stDownloaded.downloaded_images ∧
      ("http://x.test/a.jpg" ∈ (crawl envDead "x.test" 3 stDownloaded).downloaded_images ∧
       (crawl envDead "x.test" 3 stDownloaded).img_requests.count "http://x.test/a.jpg"
           = stDownloaded.img_requests.count "http://x.test/a.jpg" ∧
       (crawl envDead "x.test" 3 stDownloaded).downloaded_images.count "http://x.test/a.jpg"
           = stDownloaded.downloaded_images.count "http://x.test/a.jpg")) ∧
    (crawlRun envDead "http://x.test/" 2).downloaded_images.Nodup :=
  ⟨⟨by decide,
    C1_success_dedup.1 envDead "x.test" 3 stDownloaded "http://x.test/a.jpg" (by decide)⟩,
   C1_success_dedup.2 envDead "http://x.test/" 2⟩

/-- C2, counterexample: a discovered link whose authority equals the session
domain under standard case-insensitive host comparison, but with different
letter case, is not appended to the frontier and is never fetched — the
code compares `netloc` strings for exact equality.  This refutes the
claimed iff under "case rules follow standard host comparison". -/
theorem C2_counterexample :
    lowerStr (netlocOf (resolveLink "http://a.test/" "http://A.TEST/x"))
        = lowerStr (netlocOf "http://a.test/") ∧
    (crawlStep envUpper (netlocOf "http://a.test/")
        (crawlInit "http://a.test/")).pages_to_visit = [] ∧
    (crawlRun envUpper "http://a.test/" 2).page_requests = ["http://a.test/"] := by
  decide

/-- C2 (amended): a discovered link is appended to the Frontier iff its
resolved network authority is exactly (case-sensitively, as a string) equal
to the session Domain and the link is in neither the VisitedSet nor the
Frontier; when appended it goes to the back of the Frontier; and image
handling is entirely independent of the session Domain (image URLs are
never domain-filtered). -/
theorem C2_domain_filter_exact :
    (∀ (domain page : String) (st : CrawlState) (href : String),
      ((processLink domain page st href).pages_to_visit ≠ st.pages_to_visit ↔
        (netlocOf (resolveLink page href) = domain ∧
         resolveLink page href ∉ st.visited_pages ∧
         resolveLink page href ∉ st.pages_to_visit)) ∧
      ((processLink domain page st href).pages_to_visit ≠ st.pages_to_visit →
        (processLink domain page st href).pages_to_visit
          = st.pages_to_visit ++ [resolveLink page href])) ∧
    (∀ (env : Env) (d1 d2 : String) (st : CrawlState),
      (crawlStep env d1 st).img_requests = (crawlStep env d2 st).img_requests ∧
      (crawlStep env d1 st).downloaded_images = (crawlStep env d2 st).downloaded_images ∧
      (crawlStep env d1 st).files = (crawlStep env d2 st).files) := by
  constructor
  · intro domain page st href
    by_cases c1 : netlocOf (resolveLink page href) = domain
    · by_cases c2 : resolveLink page href ∈ st.visited_pages
      · rw [processLink_drop domain page st href (Or.inr (Or.inl c2))]
        exact ⟨⟨fun hc => absurd rfl hc, fun hc => absurd c2 hc.2.1⟩,
               fun hc => absurd rfl hc⟩
      · by_cases c3 : resolveLink page href ∈ st.pages_to_visit
        · rw [processLink_drop domain page st href (Or.inr (Or.inr c3))]
          exact ⟨⟨fun hc => absurd rfl hc, fun hc => absurd c3 hc.2.2⟩,
                 fun hc => absurd rfl hc⟩
        · rw [processLink_append domain page st href c1 c2 c3]
          have hne : st.pages_to_visit ++ [resolveLink page href] ≠ st.pages_to_visit := by
            intro heq
            have := congrArg List.length heq
            simp at this
          exact ⟨⟨fun _ => ⟨c1, c2, c3⟩, fun _ => hne⟩, fun _ => rfl⟩
    · rw [processLink_drop domain page st href (Or.inl c1)]
      exact ⟨⟨fun hc => absurd rfl hc, fun hc => absurd hc.1 c1⟩, fun hc => absurd rfl hc⟩
  · intro env d1 d2 st
    cases hF : st.pages_to_visit with
    | nil =>
      rw [crawlStep_done env d1 st hF, crawlStep_done env d2 st hF]
      exact ⟨rfl, rfl, rfl⟩
    | cons p rest =>
      by_cases hv : p ∈ st.visited_pages
      · rw [crawlStep_skip env d1 st p rest hF hv, crawlStep_skip env d2 st p rest hF hv]
        exact ⟨rfl, rfl, rfl⟩
      · rw [crawlStep_new_unfold env d1 st p rest hF hv,
            crawlStep_new_unfold env d2 st p rest hF hv]
        cases hp : env.fetchPage p with
        | none => exact ⟨rfl, rfl, rfl⟩
        | some pg =>
          set st3 := pg.imgs.foldl (processImg env p)
            { st with pages_to_visit := rest,
                      visited_pages := st.visited_pages ++ [p],
                      page_requests := st.page_requests ++ [p] } with hst3
          obtain ⟨_, b1, c1, _, e1⟩ := foldl_processLink_untouched d1 p pg.links st3
          obtain ⟨_, b2, c2, _, e2⟩ := foldl_processLink_untouched d2 p pg.links st3
          exact ⟨e1.trans e2.symm, b1.trans b2.symm, c1.trans c2.symm⟩

/-- C2, witness: a same-case in-domain novel link is appended; the download
side of one step does not depend on the domain argument. -/
theorem C2_domain_filter_exact_witness :
    ((processLink "x.test" "http://x.test/" (crawlInit "http://x.test/")
        "/a.html").pages_to_visit ≠ (crawlInit "http://x.test/").pages_to_visit ∧
     (processLink "x.test" "http://x.test/" (crawlInit "http://x.test/")
        "/a.html").pages_to_visit
       = (crawlInit "http://x.test/").pages_to_visit
           ++ [resolveLink "http://x.test/" "/a.html"]) ∧
    (crawlStep envScenario "example.test" (crawlInit "http://example.test/")).img_requests
      = (crawlStep envScenario "other" (crawlInit "http://example.test/")).img_requests :=
  ⟨⟨((C2_domain_filter_exact.1 "x.test" "http://x.test/" (crawlInit "http://x.test/")
        "/a.html").1).mpr ⟨by decide, by decide, by decide⟩,
    ((C2_domain_filter_exact.1 "x.test" "http://x.test/" (crawlInit "http://x.test/")
        "/a.html").2) (((C2_domain_filter_exact.1 "x.test" "http://x.test/"
        (crawlInit "http://x.test/") "/a.html").1).mpr ⟨by decide, by decide, by decide⟩)⟩,
   (C2_domain_filter_exact.2 envScenario "example.test" "other"
      (crawlInit "http://example.test/")).1⟩

/-- C3, counterexample: two `<img>` references to the same image that differ
only by `#fragment` resolve to two distinct entries of the downloaded set
and are each fetched — image URLs are inserted without fragment removal.
This refutes the claim that every URL inserted into any set of the crawl
has its fragment removed and that such references are downloaded at most
once combined. -/
theorem C3_counterexample :
    stripFragment "http://x.test/p.jpg#a" = stripFragment "http://x.test/p.jpg#b" ∧
    "http://x.test/p.jpg#a" ≠ "http://x.test/p.jpg#b" ∧
    (crawlRun envFrag "http://x.test/" 2).downloaded_images
      = ["http://x.test/p.jpg#a", "http://x.test/p.jpg#b"] ∧
    (crawlRun envFrag "http://x.test/" 2).img_requests.length = 2 := by
  decide

/-- C3 (amended): link URLs are fragment-stripped before resolution, so two
hrefs differing only in their fragment are the same Frontier/Visited
entity — they produce identical link-processing steps; image URLs, by
contrast, keep their fragment: the downloaded-set dedup key for an image is
its resolved URL with the fragment intact. -/
theorem C3_fragment_links_not_images :
    (∀ (domain page : String) (st : CrawlState) (h1 h2 : String),
      stripFragment h1 = stripFragment h2 →
      processLink domain page st h1 = processLink domain page st h2) ∧
    (∀ (env : Env) (page : String) (st : CrawlState) (src : String), src ≠ "" →
      (processImg env page st (some src) = st ↔
        urljoin page src ∈ st.downloaded_images)) := by
  constructor
  · intro domain page st a b hab
    simp only [processLink, resolveLink, hab]
  · intro env page st src hsrc
    constructor
    · intro heq
      by_contra hmem
      have hlen : ∀ s2 : CrawlState,
          s2.img_requests = st.img_requests ++ [urljoin page src] → s2 ≠ st := by
        intro s2 h2 hc
        rw [hc] at h2
        have := congrArg List.length h2
        simp at this
      rcases processImg_cases env page st src hsrc with
        ⟨hm, _⟩ | ⟨_, _, he⟩ | ⟨c, _, _, _, he⟩ | ⟨c, _, _, _, he⟩
      · exact hmem hm
      · exact hlen _ (by rw [he]) heq
      · exact hlen _ (by rw [he]) heq
      · exact hlen _ (by rw [he]) heq
    · intro hmem
      simp only [processImg]
      rw [if_neg hsrc, if_pos hmem]

/-- C3, witness: fragment-equivalent hrefs act identically on a concrete
state, and a concrete already-downloaded image URL is skipped. -/
theorem C3_fragment_links_not_images_witness :
    (processLink "x.test" "http://x.test/" (crawlInit "http://x.test/") "p.html#a"
      = processLink "x.test" "http://x.test/" (crawlInit "http://x.test/") "p.html#b") ∧
    (processImg envDead "http://x.test/" stDownloaded (some "a.jpg") = stDownloaded ↔
      urljoin "http://x.test/" "a.jpg" ∈ stDownloaded.downloaded_images) :=
  ⟨C3_fragment_links_not_images.1 "x.test" "http://x.test/" (crawlInit "http://x.test/")
      "p.html#a" "p.html#b" (by decide),
   C3_fragment_links_not_images.2 envDead "http://x.test/" stDownloaded "a.jpg"
      (by decide)⟩

/-- C4, counterexample: an image URL with an empty derived filename is
skipped without a write, but it is not marked processed: referenced twice,
it is fetched twice, and the downloaded set stays empty.  This refutes "the
URL is nevertheless marked as processed in the DownloadedImageSet, so the
same URL is never attempted again within the session". -/
theorem C4_counterexample :
    basename (pathOf (urljoin "http://x.test/" "/")) = "" ∧
    (crawlRun envNoName "http://x.test/" 2).img_requests
      = ["http://x.test/", "http://x.test/"] ∧
    (crawlRun envNoName "http://x.test/" 2).downloaded_images = [] ∧
    (crawlRun envNoName "http://x.test/" 2).files = [] := by
  decide

/-- C4 (amended): when the derived filename of an image URL is empty the
Downloader writes nothing and skips the image, and the URL is **not**
recorded in the DownloadedImageSet, so a later reference to the same URL is
attempted again. -/
theorem C4_empty_filename_skipped (env : Env) (page : String) (st : CrawlState)
    (src : String) (hsrc : src ≠ "")
    (hfn : basename (pathOf (urljoin page src)) = "") :
    (processImg env page st (some src)).files = st.files ∧
    (processImg env page st (some src)).downloaded_images = st.downloaded_images := by
  rcases processImg_cases env page st src hsrc with
    ⟨_, he⟩ | ⟨_, _, he⟩ | ⟨c, _, _, _, he⟩ | ⟨c, _, _, hfn2, he⟩
  · rw [he]; exact ⟨rfl, rfl⟩
  · rw [he]; exact ⟨rfl, rfl⟩
  · rw [he]; exact ⟨rfl, rfl⟩
  · exact absurd hfn hfn2

/-- C4, witness at the concrete empty-basename URL. -/
theorem C4_empty_filename_skipped_witness :
    ("/" ≠ "" ∧ basename (pathOf (urljoin "http://x.test/" "/")) = "") ∧
    (processImg envNoName "http://x.test/" (crawlInit "http://x.test/")
        (some "/")).files = (crawlInit "http://x.test/").files ∧
    (processImg envNoName "http://x.test/" (crawlInit "http://x.test/")
        (some "/")).downloaded_images = (crawlInit "http://x.test/").downloaded_images :=
  ⟨⟨by decide, by decide⟩,
   C4_empty_filename_skipped envNoName "http://x.test/" (crawlInit "http://x.test/") "/"
     (by decide) (by decide)⟩

/-- C5: a failed page fetch is non-fatal — the model is total, the failed
page is recorded as visited and requested but contributes no links, no
images, no file writes and no frontier growth, and the loop continues with
the next frontier entry. -/
theorem C5_fetch_failure_nonfatal (env : Env) (domain : String) (st : CrawlState)
    (page : String) (rest : List String) (hF : st.pages_to_visit = page :: rest)
    (hv : page ∉ st.visited_pages) (hfail : env.fetchPage page = none) :
    crawlStep env domain st =
      { st with pages_to_visit := rest,
                visited_pages := st.visited_pages ++ [page],
                page_requests := st.page_requests ++ [page] } ∧
    (∀ fuel, crawl env domain (fuel + 1) st
        = crawl env domain fuel (crawlStep env domain st)) := by
  constructor
  · rw [crawlStep_new_unfold env domain st page rest hF hv, hfail]
  · exact fun fuel => crawl_succ env domain st page rest fuel hF

/-- C5, witness: the dead environment fails to serve the seed, the step
only records the visit, and the loop advances. -/
theorem C5_fetch_failure_nonfatal_witness :
    ((crawlInit "http://x.test/").pages_to_visit = "http://x.test/" :: [] ∧
     "http://x.test/" ∉ (crawlInit "http://x.test/").visited_pages ∧
     envDead.fetchPage "http://x.test/" = none) ∧
    (crawlStep envDead "x.test" (crawlInit "http://x.test/") =
      { crawlInit "http://x.test/" with
          pages_to_visit := [],
          visited_pages := (crawlInit "http://x.test/").visited_pages ++ ["http://x.test/"],
          page_requests :=
            (crawlInit "http://x.test/").page_requests ++ ["http://x.test/"] } ∧
     (∀ fuel, crawl envDead "x.test" (fuel + 1) (crawlInit "http://x.test/")
        = crawl envDead "x.test" fuel (crawlStep envDead "x.test"
            (crawlInit "http://x.test/")))) :=
  ⟨⟨rfl, by decide, rfl⟩,
   C5_fetch_failure_nonfatal envDead "x.test" (crawlInit "http://x.test/")
     "http://x.test/" [] rfl (by decide) rfl⟩

/-- C6: in every session, the page-request log equals the visited set — a
URL is recorded visited exactly when it is dequeued and requested, fetch
outcome notwithstanding — and the log is duplicate-free: each distinct URL
is fetched at most once. -/
theorem C6_fetched_at_most_once (env : Env) (base : String) (fuel : Nat) :
    (crawlRun env base fuel).page_requests = (crawlRun env base fuel).visited_pages ∧
    (crawlRun env base fuel).page_requests.Nodup := by
  simp only [crawlRun]
  obtain ⟨_, _, h3, h4⟩ := crawl_basic env (netlocOf base) base fuel
  exact ⟨h3, h3 ▸ h4⟩

/-- C9: on a successful download with a non-empty derived filename, the
fetched bytes are written unchanged under the basename of the image URL's
path, and writes to an existing name replace its contents while leaving
every other name untouched (last-writer-wins, no collision suffixing). -/
theorem C9_write_verbatim (env : Env) (page : String) (st : CrawlState) (src : String)
    (content : List Nat) (hsrc : src ≠ "")
    (hnew : urljoin page src ∉ st.downloaded_images)
    (hfetch : env.fetchImage (urljoin page src) = some content)
    (hfn : basename (pathOf (urljoin page src)) ≠ "") :
    (processImg env page st (some src)).files
        = writeFile st.files (basename (pathOf (urljoin page src))) content ∧
    (∀ (fs : List (String × List Nat)) (name : String) (c : List Nat),
      readFile (writeFile fs name c) name = some c) ∧
    (∀ (fs : List (String × List Nat)) (name : String) (c : List Nat) (other : String),
      other ≠ name → readFile (writeFile fs name c) other = readFile fs other) := by
  refine ⟨?_, ?_, ?_⟩
  · rcases processImg_cases env page st src hsrc with
      ⟨hm, _⟩ | ⟨_, hf, _⟩ | ⟨c, _, _, hfn2, _⟩ | ⟨c, _, hf, _, he⟩
    · exact absurd hm hnew
    · rw [hfetch] at hf; cases hf
    · exact absurd hfn2 hfn
    · have hc : c = content := by
        rw [hfetch] at hf
        exact (Option.some.inj hf).symm
      rw [he, hc]
  · intro fs name c
    simp [readFile, writeFile]
  · intro fs name c other hne
    simp only [readFile, writeFile, List.find?]
    rw [decide_eq_false (fun hc => hne hc.symm)]

/-- C9, witness at a concrete successful download. -/
theorem C9_write_verbatim_witness :
    ("b.jpg" ≠ "" ∧
     urljoin "http://x.test/" "b.jpg" ∉ (crawlInit "http://x.test/").downloaded_images ∧
     envNoName.fetchImage (urljoin "http://x.test/" "b.jpg") = some [7] ∧
     basename (pathOf (urljoin "http://x.test/" "b.jpg")) ≠ "") ∧
    (processImg envNoName "http://x.test/" (crawlInit "http://x.test/")
        (some "b.jpg")).files
      = writeFile (crawlInit "http://x.test/").files
          (basename (pathOf (urljoin "http://x.test/" "b.jpg"))) [7] ∧
    readFile (writeFile [] "b.jpg" [7]) "b.jpg" = some [7] :=
  ⟨⟨by decide, by decide, by decide, by decide⟩,
   (C9_write_verbatim envNoName "http://x.test/" (crawlInit "http://x.test/") "b.jpg" [7]
      (by decide) (by decide) (by decide) (by decide)).1,
   (C9_write_verbatim envNoName "http://x.test/" (crawlInit "http://x.test/") "b.jpg" [7]
      (by decide) (by decide) (by decide) (by decide)).2.1 [] "b.jpg" [7]⟩

/-- C10: at every state a session reaches, the frontier is duplicate-free
and disjoint from the visited set; in particular the popped head of the
frontier is never already visited, so the dequeue-time guard branch is
never taken from the initial state. -/
theorem C10_guard_dead (env : Env) (base : String) (fuel : Nat) :
    (crawlRun env base fuel).pages_to_visit.Nodup ∧
    (∀ u ∈ (crawlRun env base fuel).pages_to_visit,
        u ∉ (crawlRun env base fuel).visited_pages) ∧
    (∀ p rest, (crawlRun env base fuel).pages_to_visit = p :: rest →
        p ∉ (crawlRun env base fuel).visited_pages) := by
  simp only [crawlRun]
  obtain ⟨h1, h2, _, _⟩ := crawl_basic env (netlocOf base) base fuel
  exact ⟨h1, h2, fun p rest hpr => h2 p (by rw [hpr]; exact List.mem_cons_self p rest)⟩

/-- Each iteration on a non-empty frontier keeps the frontier inside any
successor-closed universe `R` and decreases the termination measure by
exactly one. -/
theorem crawlStep_measure (env : Env) (domain : String) (R : List String) (st : CrawlState)
    (p : String) (rest : List String) (hF : st.pages_to_visit = p :: rest)
    (hsub : ∀ u ∈ st.pages_to_visit, u ∈ R)
    (hclosed : ∀ u ∈ R, ∀ v ∈ succs env domain u, v ∈ R) :
    (∀ u ∈ (crawlStep env domain st).pages_to_visit, u ∈ R) ∧
    crawlMeasure R (crawlStep env domain st) + 1 = crawlMeasure R st := by
  by_cases hv : p ∈ st.visited_pages
  · rw [crawlStep_skip env domain st p rest hF hv]
    constructor
    · intro u hu
      exact hsub u (by rw [hF]; exact List.mem_cons_of_mem p hu)
    · have hset : st.visited_pages.toFinset ∪ (p :: rest).toFinset
          = st.visited_pages.toFinset ∪ rest.toFinset := by
        ext x
        simp only [List.toFinset_cons, Finset.mem_union, Finset.mem_insert,
          List.mem_toFinset]
        constructor
        · rintro (h | h | h)
          · exact Or.inl h
          · exact Or.inl (by rw [h]; exact hv)
          · exact Or.inr h
        · rintro (h | h)
          · exact Or.inl h
          · exact Or.inr (Or.inr h)
      simp only [crawlMeasure, hF, List.length_cons]
      rw [hset]
      omega
  · obtain ⟨new, e1, _, e3, hnd, hsl, hnov, _⟩ := crawlStep_new env domain st p rest hF hv
    have hpR : p ∈ R := hsub p (by rw [hF]; exact List.mem_cons_self p rest)
    have hnewR : ∀ v ∈ new, v ∈ R := fun v hvm => hclosed p hpR v (hsl.subset hvm)
    constructor
    · intro u hu
      rw [e3] at hu
      rcases List.mem_append.mp hu with hu | hu
      · exact hsub u (by rw [hF]; exact List.mem_cons_of_mem p hu)
      · exact hnewR u hu
    · have hXnew : (crawlStep env domain st).visited_pages.toFinset ∪
          (crawlStep env domain st).pages_to_visit.toFinset
          = (st.visited_pages.toFinset ∪ (p :: rest).toFinset) ∪ new.toFinset := by
        rw [e1, e3]
        ext x
        simp only [List.toFinset_append, List.toFinset_cons, Finset.mem_union,
          Finset.mem_insert, List.mem_toFinset, List.toFinset_nil,
          Finset.union_comm, Finset.mem_singleton]
        tauto
      have hNsub : new.toFinset ⊆
          R.dedup.toFinset \ (st.visited_pages.toFinset ∪ (p :: rest).toFinset) := by
        intro x hx
        rw [List.mem_toFinset] at hx
        obtain ⟨n1, n2, n3⟩ := hnov x hx
        rw [Finset.mem_sdiff]
        constructor
        · rw [List.mem_toFinset, List.mem_dedup]
          exact hnewR x hx
        · simp only [List.toFinset_cons, Finset.mem_union, Finset.mem_insert,
            List.mem_toFinset]
          rintro (h | h | h)
          · exact n1 h
          · exact n2 h
          · exact n3 h
      have hsdiff : R.dedup.toFinset \
            ((st.visited_pages.toFinset ∪ (p :: rest).toFinset) ∪ new.toFinset)
          = (R.dedup.toFinset \ (st.visited_pages.toFinset ∪ (p :: rest).toFinset))
              \ new.toFinset := by
        ext x
        simp only [Finset.mem_sdiff, Finset.mem_union]
        tauto
      have hcardN : new.toFinset.card = new.length := List.toFinset_card_of_nodup hnd
      have hlen : new.length ≤ (R.dedup.toFinset \
          (st.visited_pages.toFinset ∪ (p :: rest).toFinset)).card := by
        calc new.length = new.toFinset.card := hcardN.symm
          _ ≤ _ := Finset.card_le_card hNsub
      have hcard : (R.dedup.toFinset \
            ((st.visited_pages.toFinset ∪ (p :: rest).toFinset) ∪ new.toFinset)).card
          = (R.dedup.toFinset \
              (st.visited_pages.toFinset ∪ (p :: rest).toFinset)).card - new.length := by
        rw [hsdiff, Finset.card_sdiff hNsub, hcardN]
      simp only [crawlMeasure]
      rw [hXnew, hcard, e3, hF]
      simp only [List.length_append, List.length_cons]
      omega

/-- With the frontier inside a successor-closed universe, fuel equal to the
termination measure drains the frontier completely. -/
theorem crawl_terminates (env : Env) (domain : String) (R : List String)
    (hclosed : ∀ u ∈ R, ∀ v ∈ succs env domain u, v ∈ R) :
    ∀ (n : Nat) (st : CrawlState), (∀ u ∈ st.pages_to_visit, u ∈ R) →
      crawlMeasure R st ≤ n → (crawl env domain n st).pages_to_visit = [] := by
  intro n
  induction n with
  | zero =>
    intro st _ hm
    simp only [crawlMeasure] at hm
    have : st.pages_to_visit.length = 0 := by omega
    have hnil : st.pages_to_visit = [] := List.length_eq_zero.mp this
    exact hnil
  | succ n ih =>
    intro st hsub hm
    cases hF : st.pages_to_visit with
    | nil => rw [crawl_done env domain st hF]; exact hF
    | cons p rest =>
      rw [crawl_succ env domain st p rest n hF]
      obtain ⟨hsub', hmeq⟩ := crawlStep_measure env domain R st p rest hF hsub hclosed
      exact ih _ hsub' (by omega)

/-- C7: the Frontier is a FIFO queue — each iteration removes exactly the
head and appends a block of newly discovered links at the back, in the
page's extraction order (the block is a subsequence of the page's resolved
in-domain links) — and the resulting dequeue order is breadth-first: along
the page-request log of any session, discovery depths never decrease, so
every URL first discovered at depth `d` is dequeued before any URL first
discovered at depth `d + 1`. -/
theorem C7_fifo_bfs :
    (∀ (env : Env) (domain : String) (st : CrawlState) (p : String) (rest : List String),
      st.pages_to_visit = p :: rest →
      ∃ new, (crawlStep env domain st).pages_to_visit = rest ++ new ∧
        new.Sublist (succs env domain p)) ∧
    (∀ (env : Env) (base : String) (fuel : Nat),
      LayerMono env (netlocOf base) base (crawlRun env base fuel).page_requests) := by
  constructor
  · intro env domain st p rest hF
    by_cases hv : p ∈ st.visited_pages
    · refine ⟨[], ?_, List.nil_sublist _⟩
      rw [crawlStep_skip env domain st p rest hF hv]
      simp
    · obtain ⟨new, _, _, e3, _, hsl, _, _⟩ := crawlStep_new env domain st p rest hF hv
      exact ⟨new, e3, hsl⟩
  · intro env base fuel
    exact (crawl_bfs env (netlocOf base) base fuel).2.2.2.2.1

/-- C7, witness: a concrete two-page chain, with FIFO step shape and a
layer-monotone request log. -/
theorem C7_fifo_bfs_witness :
    ((crawlInit "http://c.test/").pages_to_visit = "http://c.test/" :: []) ∧
    (∃ new, (crawlStep envChain "c.test" (crawlInit "http://c.test/")).pages_to_visit
        = [] ++ new ∧ new.Sublist (succs envChain "c.test" "http://c.test/")) ∧
    LayerMono envChain (netlocOf "http://c.test/") "http://c.test/"
      (crawlRun envChain "http://c.test/" 3).page_requests :=
  ⟨rfl,
   C7_fifo_bfs.1 envChain "c.test" (crawlInit "http://c.test/") "http://c.test/" [] rfl,
   C7_fifo_bfs.2 envChain "http://c.test/" 3⟩

/-- C8: on a link graph whose reachable in-domain part is covered by a
finite successor-closed universe `R` containing the seed, the crawl drains
the frontier — reaching the `Done` state — within at most as many
iterations as `R` has distinct URLs. -/
theorem C8_termination (env : Env) (base : String) (R : List String)
    (hbase : base ∈ R)
    (hclosed : ∀ u ∈ R, ∀ v ∈ succs env (netlocOf base) u, v ∈ R) :
    ∀ n, R.dedup.length ≤ n → (crawlRun env base n).pages_to_visit = [] := by
  intro n hn
  simp only [crawlRun]
  apply crawl_terminates env (netlocOf base) R hclosed n (crawlInit base)
  · intro u hu
    have : u = base := by
      simpa [crawlInit] using hu
    exact this ▸ hbase
  · have hbA : base ∈ R.dedup.toFinset := by
      rw [List.mem_toFinset, List.mem_dedup]
      exact hbase
    have hsing : {base} ⊆ R.dedup.toFinset := Finset.singleton_subset_iff.mpr hbA
    have hApos : 1 ≤ R.dedup.toFinset.card :=
      Finset.card_pos.mpr ⟨base, hbA⟩
    have hinit : crawlMeasure R (crawlInit base) = R.dedup.length := by
      have hU : (crawlInit base).visited_pages.toFinset ∪
          (crawlInit base).pages_to_visit.toFinset = {base} := by
        simp [crawlInit]
      simp only [crawlMeasure, hU]
      rw [Finset.card_sdiff hsing, Finset.card_singleton,
        List.toFinset_card_of_nodup (List.nodup_dedup R)]
      have hlen : (crawlInit base).pages_to_visit.length = 1 := by
        simp [crawlInit]
      rw [hlen]
      rw [List.toFinset_card_of_nodup (List.nodup_dedup R)] at hApos
      omega
    omega

/-- C8, witness: a one-URL closed universe for the dead environment. -/
theorem C8_termination_witness :
    ("http://x.test/" ∈ ["http://x.test/"] ∧
     (∀ u ∈ ["http://x.test/"],
        ∀ v ∈ succs envDead (netlocOf "http://x.test/") u, v ∈ ["http://x.test/"]) ∧
     ["http://x.test/"].dedup.length ≤ 1) ∧
    (crawlRun envDead "http://x.test/" 1).pages_to_visit = [] :=
  ⟨⟨by decide, by decide, by decide⟩,
   C8_termination envDead "http://x.test/" ["http://x.test/"] (by decide) (by decide) 1
     (by decide)⟩

/-- C10, witness at a concrete session state. -/
theorem C10_guard_dead_witness :
    (crawlRun envScenario "http://example.test/" 1).pages_to_visit.Nodup ∧
    (∀ u ∈ (crawlRun envScenario "http://example.test/" 1).pages_to_visit,
        u ∉ (crawlRun envScenario "http://example.test/" 1).visited_pages) ∧
    (∀ p rest,
      (crawlRun envScenario "http://example.test/" 1).pages_to_visit = p :: rest →
        p ∉ (crawlRun envScenario "http://example.test/" 1).visited_pages) :=
  C10_guard_dead envScenario "http://example.test/" 1

end Scraper
